import Mathlib

/-!
Verification of the recursive wiki backup tool (`dooray_wiki_backup.py`).

Shallow embedding conventions:
* Page-body text, titles, ids and file names are `List Char` (Python `str`
  indexes by code point, which matches `List Char`).
* The two injected collaborators (API transport and browser downloader) are
  parameters: the remote page tree is a finite inductive tree `PTree`, the
  downloader is a function into the three observable outcomes `DLResult`.
* Filesystem effects are recorded as event traces (`Ev`, `AOp`); the
  per-call wall-clock timestamps of `datetime.now()` are a parameter
  `ts : Nat -> List Char` indexed by call number.
* Machine integers: Python ints are unbounded, so `Int` (the page counter,
  whose limit uses the sentinel `-1`) and `Nat` (sibling numbers, sizes).
-/

set_option autoImplicit false

namespace WikiBackup

/-- ASCII model of Python `str.isalnum` as used by the sanitizers.  It agrees
with Python on all ASCII characters and on the non-alphanumeric unicode
punctuation (slashes, colons, fullwidth punctuation) the claims quantify
over; non-ASCII unicode letters are outside the modelled alphabet. -/
def isAlnumPy (c : Char) : Bool := c.isAlphanum

/-- The whitespace stripped by Python `str.strip()` (ASCII part). -/
def isPySpace (c : Char) : Bool :=
  c = ' ' || c = '\t' || c = '\n' || c = '\x0b' || c = '\x0c' || c = '\r'

/-- `str.strip()`: drop whitespace from both ends. -/
def pyStrip (s : List Char) : List Char :=
  ((s.dropWhile isPySpace).reverse.dropWhile isPySpace).reverse

/-- Characters kept verbatim by `_create_numbered_dir`'s sanitizer:
`c.isalnum() or c in (' ', '-', '_')`. -/
def keepTitleChar (c : Char) : Bool :=
  isAlnumPy c || c = ' ' || c = '-' || c = '_'

/-- `_create_numbered_dir`: `"".join(c if c.isalnum() or c in (' ', '-', '_')
else '_' for c in subject)`. -/
def safe_subject (subject : List Char) : List Char :=
  subject.map fun c => if keepTitleChar c then c else '_'

/-- Characters kept by the file-name sanitizer used for inline images and
attachments: `c.isalnum() or c in ('-', '_')` (no space, unlike titles). -/
def keepFileChar (c : Char) : Bool :=
  isAlnumPy c || c = '-' || c = '_'

/-- File-base sanitizer of `replace_image` / `_process_attachments`. -/
def sanitize_file_base (s : List Char) : List Char :=
  s.map fun c => if keepFileChar c then c else '_'

/-- Decimal digit character, as printed by Python `%d` formatting. -/
def digitChar (d : Nat) : Char :=
  match d with
  | 0 => '0' | 1 => '1' | 2 => '2' | 3 => '3' | 4 => '4'
  | 5 => '5' | 6 => '6' | 7 => '7' | 8 => '8' | _ => '9'

/-- Decimal rendering of a natural number, fuelled (fuel `n + 1` always
suffices because the argument at least halves each step). -/
def natDigitsFuel : Nat → Nat → List Char
  | 0, _ => []
  | fuel + 1, n =>
    if n < 10 then [digitChar n]
    else natDigitsFuel fuel (n / 10) ++ [digitChar (n % 10)]

/-- Decimal rendering of a natural number (Python `%d` on a nonnegative int). -/
def natDigits (n : Nat) : List Char := natDigitsFuel (n + 1) n

/-- Python `f"{number:02d}"`: zero-pad the decimal rendering to width two. -/
def numFmt (n : Nat) : List Char :=
  if n < 10 then '0' :: natDigits n else natDigits n

/-- The directory name built by `WikiBackupManager._create_numbered_dir`:
`f"{number:02d} {safe_subject}"`. -/
def numbered_dir_name (number : Nat) (subject : List Char) : List Char :=
  numFmt number ++ ' ' :: safe_subject subject

/-- Index of the last `'.'` in a name, if any. -/
def lastDotIdx : List Char → Option Nat
  | [] => none
  | c :: rest =>
    match lastDotIdx rest with
    | some i => some (i + 1)
    | none => if c = '.' then some 0 else none

/-- `os.path.splitext` on a bare file name (no path separators): split at the
last dot unless every character before it is itself a dot. -/
def splitext (s : List Char) : List Char × List Char :=
  match lastDotIdx s with
  | none => (s, [])
  | some i => if (s.take i).all (· = '.') then (s, []) else (s.take i, s.drop i)

/-- `PageCounter` of the source: a global visited count against a limit
(`-1` is the unlimited sentinel) plus per-parent sibling counters
(`defaultdict(int)`, modelled as an association list defaulting to `0`). -/
structure PageCounter where
  count : Int
  limit : Int
  level_counters : List (List Char × Nat)
deriving DecidableEq

/-- Lookup in the `defaultdict(int)`: first hit or the default `0`. -/
def lookupD : List (List Char × Nat) → List Char → Nat
  | [], _ => 0
  | (k, v) :: rest, key => if k = key then v else lookupD rest key

/-- Store into the `defaultdict(int)`: overwrite the first hit or append. -/
def setK : List (List Char × Nat) → List Char → Nat → List (List Char × Nat)
  | [], key, v => [(key, v)]
  | (k, w) :: rest, key, v =>
    if k = key then (k, v) :: rest else (k, w) :: setK rest key v

/-- Fresh counter with a given limit (`PageCounter.__init__`). -/
def PageCounter.init (limit : Int) : PageCounter := ⟨0, limit, []⟩

/-- `PageCounter.increment`: `self.count += 1; return self.limit == -1 or
self.count <= self.limit`. -/
def PageCounter.increment (c : PageCounter) : Bool × PageCounter :=
  let cnt := c.count + 1
  (decide (c.limit = -1) || decide (cnt ≤ c.limit), ⟨cnt, c.limit, c.level_counters⟩)

/-- `PageCounter.get_next_number`: `self.level_counters[parent_id] += 1;
return self.level_counters[parent_id]`. -/
def PageCounter.get_next_number (c : PageCounter) (parent_id : List Char) :
    Nat × PageCounter :=
  let n := lookupD c.level_counters parent_id + 1
  (n, ⟨c.count, c.limit, setK c.level_counters parent_id n⟩)

/-- The booleans returned by `n` successive `increment` calls. -/
def incrementRun (c : PageCounter) : Nat → List Bool
  | 0 => []
  | n + 1 =>
    let r := c.increment
    r.1 :: incrementRun r.2 n

/-- The numbers returned by successive `get_next_number` calls on the given
key sequence. -/
def run_get_next (c : PageCounter) : List (List Char) → List Nat
  | [] => []
  | k :: rest =>
    let r := c.get_next_number k
    r.1 :: run_get_next r.2 rest

/-- Occurrences of one key in a key sequence. -/
def countOcc (k : List Char) : List (List Char) → Nat
  | [] => 0
  | x :: rest => (if x = k then 1 else 0) + countOcc k rest

/-! ## The inline-image pattern and `re.sub`

The pattern of `_process_inline_images` is
`r'!\[(.*?)\]\(/wikis/(\d+)/files/(\d+)\)'`.  `.` excludes the newline, the
first group is lazy, `\d` is modelled as an ASCII digit.  Since a digit is
never `'/'` or `')'`, the greedy `\d+` groups need no backtracking, and the
lazy alt group takes the shortest length at which the literal tail matches. -/

/-- Strip a literal sequence from the front, returning the rest on success. -/
def stripPre : List Char → List Char → Option (List Char)
  | [], s => some s
  | _ :: _, [] => none
  | p :: ps, c :: cs => if c = p then stripPre ps cs else none

/-- Maximal leading run of digits (the `\d+` groups). -/
def takeDigits : List Char → List Char × List Char
  | [] => ([], [])
  | c :: rest =>
    if c.isDigit then
      let r := takeDigits rest
      (c :: r.1, r.2)
    else ([], c :: rest)

/-- The literal `](/wikis/` between the alt group and the container id. -/
def litWikis : List Char := "](/wikis/".toList

/-- The literal `/files/` between the container id and the file id. -/
def litFiles : List Char := "/files/".toList

/-- Match `](/wikis/(\d+)/files/(\d+)\)` at the front; on success return the
two digit groups and the text after the closing parenthesis. -/
def matchAfterAlt (s : List Char) : Option (List Char × List Char × List Char) :=
  match stripPre litWikis s with
  | none => none
  | some s1 =>
    let t1 := takeDigits s1
    if t1.1 = [] then none
    else
      match stripPre litFiles t1.2 with
      | none => none
      | some s3 =>
        let t2 := takeDigits s3
        if t2.1 = [] then none
        else
          match t2.2 with
          | c :: r => if c = ')' then some (t1.1, t2.1, r) else none
          | [] => none

/-- Lazy `(.*?)` followed by `matchAfterAlt`: try the empty alt first, then
extend one non-newline character at a time. -/
def findAlt : List Char → Option (List Char × List Char × List Char × List Char)
  | [] => none
  | c :: rest =>
    match matchAfterAlt (c :: rest) with
    | some (d1, d2, r) => some ([], d1, d2, r)
    | none =>
      if c = '\n' then none
      else
        match findAlt rest with
        | none => none
        | some (alt, d1, d2, r) => some (c :: alt, d1, d2, r)

/-- Anchored match of the whole inline-image pattern at the front of `s`:
on success, the alt text, container id, file id, and the rest of `s`. -/
def matchAt (s : List Char) : Option (List Char × List Char × List Char × List Char) :=
  match s with
  | c1 :: c2 :: rest => if c1 = '!' ∧ c2 = '[' then findAlt rest else none
  | _ => none

/-- Whether any position of `s` begins an inline-image match (i.e. whether
`re.search` would find the pattern). -/
def hasMatch : List Char → Bool
  | [] => false
  | c :: rest => (matchAt (c :: rest)).isSome || hasMatch rest

/-- The literal text of one inline-image reference
`![alt](/wikis/d1/files/d2)`. -/
def imagePat (alt d1 d2 : List Char) : List Char :=
  "![".toList ++ alt ++ litWikis ++ d1 ++ litFiles ++ d2 ++ [')']

/-! ## `replace_image` and `_process_inline_images` -/

/-- Observable outcomes of one `SeleniumDownloader.download_file` call as the
rewriter sees them: a usable local file (`ok`), `None` / a missing path
(`noFile`), or an exception escaping into the caller's handler (`exc`). -/
inductive DLResult where
  | ok
  | noFile
  | exc
deriving DecidableEq

/-- The locally generated file name of `replace_image`: alt text stripped,
`image_<fileId>.png` fallback for empty alt, split into base and extension,
base sanitized, timestamp inserted before the extension. -/
def unique_image_filename (timestamp alt file_id : List Char) : List Char :=
  let original :=
    if pyStrip alt = [] then "image_".toList ++ file_id ++ ".png".toList
    else pyStrip alt
  let se := splitext original
  sanitize_file_base se.1 ++ '_' :: timestamp ++ se.2

/-- Failure marker for a download that produced no file:
`f"![{alt_text}] (다운로드 실패 - Wiki ID: {wiki_id}, File ID: {file_id})"`. -/
def download_fail_marker (alt wiki_id file_id : List Char) : List Char :=
  "![".toList ++ alt ++ "] (다운로드 실패 - Wiki ID: ".toList ++ wiki_id ++
    ", File ID: ".toList ++ file_id ++ [')']

/-- Failure marker for an exception during one image:
`f"![{alt_text}] (처리 오류 - Wiki ID: {wiki_id}, File ID: {file_id})"`. -/
def process_error_marker (alt wiki_id file_id : List Char) : List Char :=
  "![".toList ++ alt ++ "] (처리 오류 - Wiki ID: ".toList ++ wiki_id ++
    ", File ID: ".toList ++ file_id ++ [')']

/-- `replace_image` of `_process_inline_images`: the text substituted for one
match, given that call's timestamp and the downloader outcome. -/
def replace_image (dl : List Char → List Char → DLResult) (timestamp : List Char)
    (alt wiki_id file_id : List Char) : List Char :=
  let uname := unique_image_filename timestamp alt file_id
  match dl file_id uname with
  | DLResult.ok => "![".toList ++ alt ++ "](images/".toList ++ uname ++ [')']
  | DLResult.noFile => download_fail_marker alt wiki_id file_id
  | DLResult.exc => process_error_marker alt wiki_id file_id

/-- Fuelled core of `re.sub(pattern, replace_image, content)`: scan left to
right, substitute each non-overlapping match and resume after it, copy one
character otherwise.  Each step consumes at least one character, so fuel
`s.length` is always enough; `i` numbers the matches (timestamp index). -/
def subFuel (dl : List Char → List Char → DLResult) (ts : Nat → List Char) :
    Nat → Nat → List Char → List Char
  | 0, _, s => s
  | _ + 1, _, [] => []
  | fuel + 1, i, c :: rest =>
    match matchAt (c :: rest) with
    | some (alt, d1, d2, r) =>
      replace_image dl (ts i) alt d1 d2 ++ subFuel dl ts fuel (i + 1) r
    | none => c :: subFuel dl ts fuel i rest

/-- `re.sub` for the inline-image pattern, starting at match index `i`. -/
def sub (dl : List Char → List Char → DLResult) (ts : Nat → List Char)
    (i : Nat) (s : List Char) : List Char :=
  subFuel dl ts s.length i s

/-- `WikiBackupManager._process_inline_images` restricted to its value (the
rewritten content); its `images/` mkdir side effect is not needed by the
claims about the rewriter. -/
def process_inline_images (dl : List Char → List Char → DLResult)
    (ts : Nat → List Char) (content : List Char) : List Char :=
  sub dl ts 0 content

/-! ## `_process_attachments` and `_save_page` -/

/-- One attachment descriptor as used by `_process_attachments`
(`file['name']`, `file['id']`, `file['size']`). -/
structure Attach where
  name : List Char
  id : List Char
  size : Nat
deriving DecidableEq

/-- Filesystem/download steps of `_process_attachments`, in order. -/
inductive AOp where
  | mkdirAttachments
  | download (file_id : List Char) (target : List Char)
deriving DecidableEq

/-- The unique target name for one attachment: split the original name, keep
the extension, sanitize the base, insert the timestamp. -/
def attachment_unique_name (timestamp name : List Char) : List Char :=
  let se := splitext name
  sanitize_file_base se.1 ++ '_' :: timestamp ++ se.2

/-- The markdown line appended for one attachment, by downloader outcome:
a link on success, a `다운로드 실패` note on a missing file, a `처리 오류`
note when an exception was caught. -/
def attachment_line (res : DLResult) (a : Attach) (uname : List Char) : List Char :=
  match res with
  | DLResult.ok =>
    "- [".toList ++ a.name ++ "](attachments/".toList ++ uname ++
      ") (크기: ".toList ++ natDigits a.size ++ " bytes)\n".toList
  | DLResult.noFile =>
    "- ".toList ++ a.name ++ " (다운로드 실패) (크기: ".toList ++
      natDigits a.size ++ " bytes)\n".toList
  | DLResult.exc =>
    "- ".toList ++ a.name ++ " (처리 오류) (크기: ".toList ++
      natDigits a.size ++ " bytes)\n".toList

/-- The per-file loop of `_process_attachments`: one download attempt and one
appended line per descriptor, no early exit on failure. -/
def attach_loop (dlA : List Char → List Char → DLResult) (tsA : Nat → List Char) :
    Nat → List Attach → List AOp × List (List Char)
  | _, [] => ([], [])
  | i, a :: rest =>
    let uname := attachment_unique_name (tsA i) a.name
    let line := attachment_line (dlA a.id uname) a uname
    let r := attach_loop dlA tsA (i + 1) rest
    (AOp.download a.id uname :: r.1, line :: r.2)

/-- `WikiBackupManager._process_attachments`: empty list returns at once with
no side effect; otherwise the `attachments` directory is created and every
descriptor is processed in order.  Returns the step trace and the link
lines. -/
def process_attachments (dlA : List Char → List Char → DLResult)
    (tsA : Nat → List Char) (files : List Attach) : List AOp × List (List Char) :=
  if files.isEmpty then ([], [])
  else
    let r := attach_loop dlA tsA 0 files
    (AOp.mkdirAttachments :: r.1, r.2)

/-- The heading line `_save_page` prepends: `f"# {title}\n\n"`. -/
def heading (title : List Char) : List Char :=
  "# ".toList ++ title ++ "\n\n".toList

/-- The attachments section header appended when any link line exists. -/
def attachments_header : List Char := "\n\n## 첨부 파일\n".toList

/-- The final text of `content.md` produced by `_save_page`: heading plus
body, inline images rewritten, then the attachment section if and only if
link lines exist. -/
def save_page_content (dl : List Char → List Char → DLResult) (ts : Nat → List Char)
    (dlA : List Char → List Char → DLResult) (tsA : Nat → List Char)
    (title body : List Char) (files : List Attach) : List Char :=
  let content := heading title ++ body
  let content2 := process_inline_images dl ts content
  let links := (process_attachments dlA tsA files).2
  if links = [] then content2
  else content2 ++ attachments_header ++ links.flatten

/-! ## The traversal engine (`backup_recursive` / `backup`) -/

/-- The remote page tree as discovered through the API collaborator:
`get_pages(parentId)` returns the child list of a node, in order. -/
inductive PTree where
  | node (id : List Char) (subject : List Char) (children : List PTree)

/-- Observable run events: one `get_pages` API call per fetch, one
materialized page (numbered directory + `content.md` + `metadata.json`) per
`mat`, with the page's id and its directory path (list of components under
the run's backup directory). -/
inductive Ev where
  | fetchPages (parent : Option (List Char))
  | mat (id : List Char) (path : List (List Char))
deriving DecidableEq

/-- Number of materialized pages in a trace. -/
def matCount : List Ev → Nat
  | [] => 0
  | Ev.mat _ _ :: rest => matCount rest + 1
  | _ :: rest => matCount rest

/-- Count bookkeeping relating a counter before a traversal step to the
counter after it and the emitted trace: the limit is preserved, the count
grows at least by the number of materializations, and exactly by it whenever
the final count still fits a non-unlimited limit (no `increment` refused). -/
def CInv (c c2 : PageCounter) (evs : List Ev) : Prop :=
  c2.limit = c.limit
  ∧ c.count + (matCount evs : Int) ≤ c2.count
  ∧ ((c.limit = -1 ∨ c2.count ≤ c.limit) → c2.count = c.count + (matCount evs : Int))

/-- The sentinel sibling key for top-level pages (`parent_page_id or 'root'`). -/
def rootKey : List Char := "root".toList

mutual

/-- `WikiBackupManager.backup_recursive`: return before fetching when the
count has already reached a non-unlimited limit, otherwise fetch the child
list and walk it. -/
def backup_recursive (c : PageCounter) (parent_id : List Char)
    (base : List (List Char)) (pages : List PTree) : PageCounter × List Ev :=
  if c.count ≥ c.limit ∧ c.limit ≠ -1 then (c, [])
  else
    let r := backup_loop c parent_id base pages
    (r.1, Ev.fetchPages (some parent_id) :: r.2)

/-- The `for page in pages["result"]` loop of `backup_recursive`: advance the
counter (stop the level when it refuses), take the sibling number, create the
numbered directory, save the page, recurse into its children, continue with
the remaining siblings. -/
def backup_loop (c : PageCounter) (parent_id : List Char)
    (base : List (List Char)) (pages : List PTree) : PageCounter × List Ev :=
  match pages with
  | [] => (c, [])
  | PTree.node pid psub pchildren :: rest =>
    let r0 := c.increment
    if r0.1 then
      let key := if parent_id = [] then rootKey else parent_id
      let r1 := r0.2.get_next_number key
      let path := base ++ [numbered_dir_name r1.1 psub]
      let r2 := backup_recursive r1.2 pid path pchildren
      let r3 := backup_loop r2.1 parent_id base rest
      (r3.1, Ev.mat pid path :: r2.2 ++ r3.2)
    else (r0.2, [])

end

/-- `WikiBackupManager.backup`: fetch the top-level pages (`none` models the
raised `ValueError` when there are none), take the first as the root, save it
into a directory named from the project code with number `1`, advance the
counter unconditionally, and recurse into the root's children.  Returns the
final counter (whose `count` the run reports as `Total pages backed up`) and
the event trace. -/
def backup (limit : Int) (project_code : List Char) (roots : List PTree) :
    Option (PageCounter × List Ev) :=
  match roots with
  | [] => none
  | PTree.node rid _ rchildren :: _ =>
    let c0 := PageCounter.init limit
    let root_path := [numbered_dir_name 1 project_code]
    let c1 := (c0.increment).2
    let c2 := (c1.get_next_number rootKey).2
    let r := backup_recursive c2 rid root_path rchildren
    some (r.1, Ev.fetchPages none :: Ev.mat rid root_path :: r.2)

/-! ## Lemmas about the matcher and the substitution scan -/

theorem stripPre_append : ∀ (p s r : List Char), stripPre p s = some r → s = p ++ r := by
  intro p
  induction p with
  | nil => intro s r h; simpa [stripPre] using h
  | cons c p ih =>
    intro s r h
    cases s with
    | nil => simp [stripPre] at h
    | cons a s =>
      simp only [stripPre] at h
      by_cases hca : a = c
      · subst hca
        simp only [if_pos rfl] at h
        simpa using ih s r h
      · simp [hca] at h

theorem takeDigits_append : ∀ (s : List Char), s = (takeDigits s).1 ++ (takeDigits s).2 := by
  intro s
  induction s with
  | nil => simp [takeDigits]
  | cons c rest ih =>
    by_cases hd : c.isDigit
    · simpa [takeDigits, hd] using ih
    · simp [takeDigits, hd]

theorem matchAfterAlt_length (s d1 d2 r : List Char)
    (h : matchAfterAlt s = some (d1, d2, r)) : r.length < s.length := by
  simp only [matchAfterAlt] at h
  cases h1 : stripPre litWikis s with
  | none => simp [h1] at h
  | some s1 =>
    simp only [h1] at h
    by_cases he1 : (takeDigits s1).1 = []
    · simp [he1] at h
    · simp only [if_neg he1] at h
      cases h2 : stripPre litFiles (takeDigits s1).2 with
      | none => simp [h2] at h
      | some s3 =>
        simp only [h2] at h
        by_cases he2 : (takeDigits s3).1 = []
        · simp [he2] at h
        · simp only [if_neg he2] at h
          cases h3 : (takeDigits s3).2 with
          | nil => simp [h3] at h
          | cons c rest =>
            simp only [h3] at h
            by_cases hc : c = ')'
            · simp only [if_pos hc, Option.some.injEq, Prod.mk.injEq] at h
              obtain ⟨-, -, hr⟩ := h
              subst hr
              have e1 := congrArg List.length (stripPre_append _ _ _ h1)
              have e2 := congrArg List.length (takeDigits_append s1)
              have e3 := congrArg List.length (stripPre_append _ _ _ h2)
              have e4 := congrArg List.length (takeDigits_append s3)
              rw [h3] at e4
              simp only [List.length_append, List.length_cons] at e1 e2 e3 e4
              have hw : litWikis.length = 9 := by decide
              have hf : litFiles.length = 7 := by decide
              omega
            · simp [if_neg hc] at h

theorem findAlt_length : ∀ (s alt d1 d2 r : List Char),
    findAlt s = some (alt, d1, d2, r) → r.length < s.length := by
  intro s
  induction s with
  | nil => intro alt d1 d2 r h; simp [findAlt] at h
  | cons c rest ih =>
    intro alt d1 d2 r h
    simp only [findAlt] at h
    cases hm : matchAfterAlt (c :: rest) with
    | some t =>
      obtain ⟨td1, td2, tr⟩ := t
      simp only [hm, Option.some.injEq, Prod.mk.injEq] at h
      obtain ⟨-, -, -, hr⟩ := h
      subst hr
      exact matchAfterAlt_length _ _ _ _ hm
    | none =>
      simp only [hm] at h
      by_cases hc : c = '\n'
      · simp [hc] at h
      · simp only [if_neg hc] at h
        cases hf : findAlt rest with
        | none => simp [hf] at h
        | some t =>
          obtain ⟨ta, td1, td2, tr⟩ := t
          simp only [hf, Option.some.injEq, Prod.mk.injEq] at h
          obtain ⟨-, -, -, hr⟩ := h
          subst hr
          have := ih ta td1 td2 tr hf
          simp only [List.length_cons]
          omega

theorem matchAt_length (s alt d1 d2 r : List Char)
    (h : matchAt s = some (alt, d1, d2, r)) : r.length + 1 < s.length := by
  cases s with
  | nil => simp [matchAt] at h
  | cons c1 t =>
    cases t with
    | nil => simp [matchAt] at h
    | cons c2 rest =>
      simp only [matchAt] at h
      by_cases hb : c1 = '!' ∧ c2 = '['
      · simp only [if_pos hb] at h
        have := findAlt_length rest alt d1 d2 r h
        simp
        omega
      · simp [if_neg hb] at h

theorem subFuel_fuel (dl : List Char → List Char → DLResult) (ts : Nat → List Char) :
    ∀ (f g i : Nat) (s : List Char), s.length ≤ f → s.length ≤ g →
      subFuel dl ts f i s = subFuel dl ts g i s := by
  intro f
  induction f with
  | zero =>
    intro g i s hf _
    have : s = [] := List.length_eq_zero.mp (Nat.le_zero.mp hf)
    subst this
    cases g <;> simp [subFuel]
  | succ f ih =>
    intro g i s hf hg
    cases s with
    | nil => cases g <;> simp [subFuel]
    | cons c rest =>
      cases g with
      | zero => simp at hg
      | succ g =>
        simp only [List.length_cons] at hf hg
        cases hm : matchAt (c :: rest) with
        | some t =>
          obtain ⟨alt, d1, d2, r⟩ := t
          have hlen := matchAt_length _ _ _ _ _ hm
          simp only [List.length_cons] at hlen
          simp only [subFuel, hm]
          rw [ih g (i + 1) r (by omega) (by omega)]
        | none =>
          simp only [subFuel, hm]
          rw [ih g i rest (by omega) (by omega)]

theorem sub_nil (dl : List Char → List Char → DLResult) (ts : Nat → List Char)
    (i : Nat) : sub dl ts i [] = [] := rfl

theorem sub_cons_of_none (dl : List Char → List Char → DLResult) (ts : Nat → List Char)
    (i : Nat) (c : Char) (rest : List Char) (h : matchAt (c :: rest) = none) :
    sub dl ts i (c :: rest) = c :: sub dl ts i rest := by
  simp only [sub, List.length_cons, subFuel, h]

theorem sub_cons_of_match (dl : List Char → List Char → DLResult) (ts : Nat → List Char)
    (i : Nat) (c : Char) (rest alt d1 d2 r : List Char)
    (h : matchAt (c :: rest) = some (alt, d1, d2, r)) :
    sub dl ts i (c :: rest) = replace_image dl (ts i) alt d1 d2 ++ sub dl ts (i + 1) r := by
  have hlen := matchAt_length _ _ _ _ _ h
  simp only [sub, List.length_cons, subFuel, h]
  rw [subFuel_fuel dl ts rest.length r.length (i + 1) r (by simp at hlen; omega) le_rfl]

theorem mem_string_ne (s : List Char) (x : Char)
    (hall : s.all (fun c => c ≠ x) = true) : ∀ c ∈ s, c ≠ x := by
  intro c hc
  have hx := List.all_eq_true.mp hall c hc
  exact of_decide_eq_true hx

theorem sub_of_matchAt (dl : List Char → List Char → DLResult) (ts : Nat → List Char)
    (i : Nat) (s alt d1 d2 r : List Char) (h : matchAt s = some (alt, d1, d2, r)) :
    sub dl ts i s = replace_image dl (ts i) alt d1 d2 ++ sub dl ts (i + 1) r := by
  cases s with
  | nil => simp [matchAt] at h
  | cons c rest => exact sub_cons_of_match dl ts i c rest alt d1 d2 r h

theorem sub_of_hasMatch_false (dl : List Char → List Char → DLResult)
    (ts : Nat → List Char) : ∀ (s : List Char) (i : Nat),
    hasMatch s = false → sub dl ts i s = s := by
  intro s
  induction s with
  | nil => intro i _; rfl
  | cons c rest ih =>
    intro i h
    simp only [hasMatch, Bool.or_eq_false_iff] at h
    obtain ⟨h1, h2⟩ := h
    rw [sub_cons_of_none dl ts i c rest (Option.not_isSome_iff_eq_none.mp (by simp [h1]))]
    rw [ih i h2]

theorem sub_append_of_none (dl : List Char → List Char → DLResult)
    (ts : Nat → List Char) : ∀ (p rest : List Char) (i : Nat),
    (∀ k, k < p.length → matchAt (List.drop k (p ++ rest)) = none) →
    sub dl ts i (p ++ rest) = p ++ sub dl ts i rest := by
  intro p
  induction p with
  | nil => intro rest i _; simp
  | cons c p ih =>
    intro rest i h
    have h0 : matchAt (c :: (p ++ rest)) = none := by
      simpa using h 0 (by simp)
    rw [List.cons_append, sub_cons_of_none dl ts i c (p ++ rest) h0]
    rw [ih rest i fun k hk => by simpa using h (k + 1) (by simpa using hk)]
    simp

theorem matchAt_of_head_ne (c : Char) (t : List Char) (h : c ≠ '!') :
    matchAt (c :: t) = none := by
  cases t with
  | nil => rfl
  | cons c2 rest => simp [matchAt, h]

/-! ## Lemmas about file-name generation -/

theorem pyStrip_of_all_space (s : List Char) (h : ∀ c ∈ s, isPySpace c = true) :
    pyStrip s = [] := by
  unfold pyStrip
  have h1 : s.dropWhile isPySpace = [] := List.dropWhile_eq_nil_iff.mpr h
  simp [h1]

theorem lastDotIdx_append_of_nodot : ∀ (u v : List Char), (∀ c ∈ u, c ≠ '.') →
    lastDotIdx (u ++ v) = Option.map (fun i => u.length + i) (lastDotIdx v) := by
  intro u
  induction u with
  | nil =>
    intro v _
    cases h : lastDotIdx v <;> simp [h]
  | cons c u ih =>
    intro v h
    rw [List.cons_append]
    simp only [lastDotIdx]
    rw [ih v fun x hx => h x (by simp [hx])]
    cases hv : lastDotIdx v with
    | some j => simp [hv]; omega
    | none => simp [hv, h c (by simp)]

theorem splitext_append_of_nodot (u v : List Char) (hu : ∀ c ∈ u, c ≠ '.')
    (hne : ¬ u.all (· = '.')) (hv : lastDotIdx v = some 0) :
    splitext (u ++ v) = (u, v) := by
  unfold splitext
  rw [lastDotIdx_append_of_nodot u v hu, hv]
  simp [Nat.add_zero, List.take_left, List.drop_left, hne]

theorem sanitize_file_base_of_keep : ∀ (s : List Char),
    (∀ c ∈ s, keepFileChar c = true) → sanitize_file_base s = s := by
  intro s
  induction s with
  | nil => intro _; rfl
  | cons c r ih =>
    intro h
    have hr := ih fun x hx => h x (List.mem_cons_of_mem _ hx)
    simp only [sanitize_file_base] at hr
    simp only [sanitize_file_base, List.map_cons, hr,
      if_pos (h c (List.mem_cons_self _ _))]

theorem keepFileChar_of_digit (c : Char) (h : c.isDigit = true) :
    keepFileChar c = true := by
  simp [keepFileChar, isAlnumPy, Char.isAlphanum, h]

/-! ## Lemmas about decimal formatting and directory names -/

theorem digitChar_isDigit (d : Nat) : (digitChar d).isDigit = true := by
  unfold digitChar
  split <;> decide

theorem natDigitsFuel_digit : ∀ (f n : Nat), ∀ c ∈ natDigitsFuel f n, c.isDigit = true := by
  intro f
  induction f with
  | zero => intro n c hc; simp [natDigitsFuel] at hc
  | succ f ih =>
    intro n c hc
    by_cases hn : n < 10
    · simp only [natDigitsFuel, if_pos hn, List.mem_singleton] at hc
      subst hc
      exact digitChar_isDigit n
    · simp only [natDigitsFuel, if_neg hn, List.mem_append, List.mem_singleton] at hc
      rcases hc with hc | hc
      · exact ih (n / 10) c hc
      · subst hc
        exact digitChar_isDigit (n % 10)

theorem natDigitsFuel_ne_nil (f n : Nat) (h : 0 < f) : natDigitsFuel f n ≠ [] := by
  cases f with
  | zero => omega
  | succ f =>
    by_cases hn : n < 10 <;> simp [natDigitsFuel, hn]

theorem numFmt_digit (n : Nat) : ∀ c ∈ numFmt n, c.isDigit = true := by
  intro c hc
  unfold numFmt at hc
  by_cases hn : n < 10
  · simp only [if_pos hn, List.mem_cons] at hc
    rcases hc with hc | hc
    · subst hc; decide
    · exact natDigitsFuel_digit _ _ c hc
  · simp only [if_neg hn] at hc
    exact natDigitsFuel_digit _ _ c hc

theorem numFmt_length (n : Nat) : 2 ≤ (numFmt n).length := by
  unfold numFmt natDigits
  by_cases hn : n < 10
  · simp [if_pos hn, natDigitsFuel, hn]
  · rw [if_neg hn]
    have h1 : natDigitsFuel (n + 1) n = natDigitsFuel n (n / 10) ++ [digitChar (n % 10)] := by
      simp [natDigitsFuel, hn]
    rw [h1, List.length_append]
    have h2 : natDigitsFuel n (n / 10) ≠ [] := natDigitsFuel_ne_nil n (n / 10) (by omega)
    have h3 : 0 < (natDigitsFuel n (n / 10)).length := List.length_pos.mpr h2
    simp only [List.length_singleton]
    omega

theorem safe_subject_keep (t : List Char) : ∀ c ∈ safe_subject t, keepTitleChar c = true := by
  intro c hc
  simp only [safe_subject, List.mem_map] at hc
  obtain ⟨a, -, ha⟩ := hc
  by_cases hk : keepTitleChar a
  · rw [if_pos hk] at ha; subst ha; exact hk
  · rw [if_neg hk] at ha; subst ha; decide

theorem numbered_dir_name_chars (n : Nat) (title : List Char) :
    ∀ c ∈ numbered_dir_name n title,
      c.isDigit = true ∨ c = ' ' ∨ keepTitleChar c = true := by
  intro c hc
  simp only [numbered_dir_name, List.mem_append, List.mem_cons] at hc
  rcases hc with hc | hc | hc
  · exact Or.inl (numFmt_digit n c hc)
  · exact Or.inr (Or.inl hc)
  · exact Or.inr (Or.inr (safe_subject_keep title c hc))

/-! ## Lemmas about the page counter -/

theorem incrementRun_get? : ∀ (n k : Nat) (c : PageCounter), k < n →
    (incrementRun c n).get? k =
      some (decide (c.limit = -1) || decide (c.count + ((k : Int) + 1) ≤ c.limit)) := by
  intro n
  induction n with
  | zero => intro k c h; omega
  | succ n ih =>
    intro k c h
    cases k with
    | zero =>
      simp [incrementRun, PageCounter.increment]
    | succ k =>
      have := ih k ⟨c.count + 1, c.limit, c.level_counters⟩ (by omega)
      simp only [incrementRun, PageCounter.increment, List.get?_cons_succ]
      rw [this]
      congr 2
      rw [decide_eq_decide]
      constructor <;> intro <;> push_cast at * <;> omega

theorem lookupD_setK : ∀ (L : List (List Char × Nat)) (s k : List Char) (v : Nat),
    lookupD (setK L s v) k = if s = k then v else lookupD L k := by
  intro L
  induction L with
  | nil =>
    intro s k v
    simp [setK, lookupD]
  | cons p rest ih =>
    intro s k v
    obtain ⟨a, w⟩ := p
    by_cases has : a = s
    · subst has
      simp only [setK, if_pos rfl, lookupD]
      by_cases hak : a = k <;> simp [hak]
    · simp only [setK, if_neg has, lookupD]
      by_cases hak : a = k
      · have hsk : ¬ s = k := by rw [← hak]; intro hh; exact has hh.symm
        simp [hak, hsk]
      · simp [hak, ih]

theorem run_get_next_get? : ∀ (seq : List (List Char)) (c : PageCounter) (i : Nat)
    (k : List Char), seq.get? i = some k →
    (run_get_next c seq).get? i =
      some (lookupD c.level_counters k + countOcc k (seq.take (i + 1))) := by
  intro seq
  induction seq with
  | nil => intro c i k h; simp at h
  | cons s rest ih =>
    intro c i k h
    cases i with
    | zero =>
      simp only [List.get?_cons_zero, Option.some.injEq] at h
      subst h
      simp [run_get_next, PageCounter.get_next_number, countOcc]
    | succ i =>
      simp only [List.get?_cons_succ] at h
      simp only [run_get_next, List.get?_cons_succ]
      rw [ih _ i k h]
      simp only [PageCounter.get_next_number, List.take_succ_cons, countOcc]
      rw [lookupD_setK]
      by_cases hsk : s = k
      · subst hsk
        simp only [eq_self_iff_true, if_true, Option.some.injEq]
        omega
      · rw [if_neg hsk, if_neg hsk]
        congr 1
        omega

theorem countOcc_append (k : List Char) : ∀ (l1 l2 : List (List Char)),
    countOcc k (l1 ++ l2) = countOcc k l1 + countOcc k l2 := by
  intro l1 l2
  induction l1 with
  | nil => simp [countOcc]
  | cons x r ih =>
    rw [List.cons_append]
    simp only [countOcc]
    rw [ih]
    omega

theorem countOcc_pos_of_mem (k : List Char) : ∀ (l : List (List Char)), k ∈ l →
    1 ≤ countOcc k l := by
  intro l hl
  induction l with
  | nil => simp at hl
  | cons x r ih =>
    simp only [countOcc]
    rcases List.mem_cons.mp hl with h | h
    · rw [if_pos h.symm]; omega
    · have := ih h; omega

theorem sub_append_of_no_bang (dl : List Char → List Char → DLResult)
    (ts : Nat → List Char) : ∀ (p rest : List Char) (i : Nat),
    (∀ c ∈ p, c ≠ '!') →
    sub dl ts i (p ++ rest) = p ++ sub dl ts i rest := by
  intro p
  induction p with
  | nil => intro rest i _; simp
  | cons c p ih =>
    intro rest i h
    rw [List.cons_append,
      sub_cons_of_none dl ts i c (p ++ rest) (matchAt_of_head_ne c _ (h c (by simp)))]
    rw [ih rest i fun x hx => h x (by simp [hx])]
    simp

/-! ## Lemmas about attachment processing -/

theorem attach_loop_no_mkdir (dlA : List Char → List Char → DLResult)
    (tsA : Nat → List Char) : ∀ (files : List Attach) (i : Nat),
    ∀ op ∈ (attach_loop dlA tsA i files).1, op ≠ AOp.mkdirAttachments := by
  intro files
  induction files with
  | nil => intro i op hop; simp [attach_loop] at hop
  | cons f rest ih =>
    intro i op hop
    simp only [attach_loop, List.mem_cons] at hop
    rcases hop with h | h
    · subst h
      intro hcon
      exact AOp.noConfusion hcon
    · exact ih (i + 1) op h

/-! ## The count invariant of the traversal -/

theorem matCount_append : ∀ (l1 l2 : List Ev),
    matCount (l1 ++ l2) = matCount l1 + matCount l2 := by
  intro l1 l2
  induction l1 with
  | nil => simp [matCount]
  | cons e r ih =>
    rw [List.cons_append]
    cases e with
    | fetchPages p => simp only [matCount]; rw [ih]
    | mat i pa => simp only [matCount]; rw [ih]; omega

theorem backup_loop_cinv (pages : List PTree) (c : PageCounter) (pid : List Char)
    (base : List (List Char)) :
    CInv c (backup_loop c pid base pages).1 (backup_loop c pid base pages).2 := by
  cases pages with
  | nil => simp [backup_loop, CInv, matCount]
  | cons p rest =>
    obtain ⟨pid2, psub, pch⟩ := p
    by_cases hok : (c.increment).1 = true
    · simp only [backup_loop, hok, if_true]
      set key := (if pid = [] then rootKey else pid) with hkey
      set r1 := (c.increment).2.get_next_number key with hr1
      set path := base ++ [numbered_dir_name r1.1 psub] with hpath
      set r2 := backup_recursive r1.2 pid2 path pch with hr2
      set r3 := backup_loop r2.1 pid base rest with hr3
      have h2 : CInv r1.2 r2.1 r2.2 := by
        rw [hr2]
        unfold backup_recursive
        by_cases hg : r1.2.count ≥ r1.2.limit ∧ r1.2.limit ≠ -1
        · rw [if_pos hg]
          exact ⟨rfl, by simp [matCount], fun _ => by simp [matCount]⟩
        · rw [if_neg hg]
          have hl := backup_loop_cinv pch r1.2 pid2 path
          unfold CInv at hl ⊢
          simpa [matCount] using hl
      have h3 : CInv r2.1 r3.1 r3.2 := by
        rw [hr3]
        exact backup_loop_cinv rest r2.1 pid base
      have hcnt : r1.2.count = c.count + 1 := rfl
      have hlim : r1.2.limit = c.limit := rfl
      obtain ⟨h2a, h2b, h2c⟩ := h2
      obtain ⟨h3a, h3b, h3c⟩ := h3
      refine ⟨by rw [h3a, h2a, hlim], ?_, ?_⟩
      · simp only [matCount, List.append_eq, matCount_append]
        push_cast
        omega
      · intro hin
        have e3 : r3.1.count = r2.1.count + (matCount r3.2 : Int) := by
          apply h3c
          rcases hin with h | h
          · exact Or.inl (by rw [h2a, hlim]; exact h)
          · exact Or.inr (by rw [h2a, hlim]; exact h)
        have e2 : r2.1.count = r1.2.count + (matCount r2.2 : Int) := by
          apply h2c
          rcases hin with h | h
          · exact Or.inl (by rw [hlim]; exact h)
          · refine Or.inr ?_
            rw [hlim]
            omega
        simp only [matCount, List.append_eq, matCount_append]
        push_cast
        omega
    · simp only [backup_loop]
      rw [if_neg hok]
      refine ⟨rfl, ?_, ?_⟩
      · simp only [matCount, PageCounter.increment]
        push_cast
        omega
      · intro hin
        exfalso
        apply hok
        simp only [PageCounter.increment, Bool.or_eq_true, decide_eq_true_eq]
        rcases hin with h | h
        · exact Or.inl h
        · right
          simpa [PageCounter.increment] using h
termination_by sizeOf pages
decreasing_by
  all_goals simp_wf
  all_goals omega

theorem backup_recursive_cinv (pages : List PTree) (c : PageCounter) (pid : List Char)
    (base : List (List Char)) :
    CInv c (backup_recursive c pid base pages).1 (backup_recursive c pid base pages).2 := by
  unfold backup_recursive
  by_cases hg : c.count ≥ c.limit ∧ c.limit ≠ -1
  · rw [if_pos hg]
    exact ⟨rfl, by simp [matCount], fun _ => by simp [matCount]⟩
  · rw [if_neg hg]
    have hl := backup_loop_cinv pages c pid base
    unfold CInv at hl ⊢
    simpa [matCount] using hl

theorem backup_count (limit : Int) (pc : List Char) (roots : List PTree)
    (c : PageCounter) (evs : List Ev) (h : backup limit pc roots = some (c, evs)) :
    (matCount evs : Int) ≤ c.count
    ∧ c.limit = limit
    ∧ ((limit = -1 ∨ c.count ≤ limit) → c.count = (matCount evs : Int)) := by
  cases roots with
  | nil => simp [backup] at h
  | cons r rrest =>
    obtain ⟨rid, rsub, rch⟩ := r
    simp only [backup, Option.some.injEq] at h
    set c2 := ((PageCounter.init limit).increment.2.get_next_number rootKey).2 with hc2
    set rr := backup_recursive c2 rid [numbered_dir_name 1 pc] rch with hrr
    injection h with hc hevs
    subst hc
    subst hevs
    have hc2cnt : c2.count = 1 := by
      simp [hc2, PageCounter.init, PageCounter.increment, PageCounter.get_next_number]
    have hc2lim : c2.limit = limit := rfl
    have hinv := backup_recursive_cinv rch c2 rid [numbered_dir_name 1 pc]
    rw [← hrr] at hinv
    obtain ⟨ha, hb, himp⟩ := hinv
    have hm : matCount (Ev.fetchPages none ::
        Ev.mat rid [numbered_dir_name 1 pc] :: rr.2) = 1 + matCount rr.2 := by
      simp [matCount]
      omega
    refine ⟨?_, by rw [ha, hc2lim], ?_⟩
    · rw [hm]
      push_cast
      omega
    · intro hin
      have hd : c2.limit = -1 ∨ rr.1.count ≤ c2.limit := by
        rw [hc2lim]
        exact hin
      have := himp hd
      rw [hm]
      push_cast at *
      omega

/-- Exact run of `backup` on a root with two children under quota 2: the root
and the first child are materialized, the increment for the second child is
refused (count 3), and the first child's subtree is never fetched. -/
theorem backup_two_children_run (idA sA idB sB idC sC pc : List Char)
    (bc cc : List PTree) (h1 : idA ≠ []) (h2 : idA ≠ rootKey) :
    backup 2 pc [PTree.node idA sA [PTree.node idB sB bc, PTree.node idC sC cc]]
      = some (⟨3, 2, [(rootKey, 1), (idA, 1)]⟩,
          [Ev.fetchPages none, Ev.mat idA [numbered_dir_name 1 pc],
           Ev.fetchPages (some idA),
           Ev.mat idB [numbered_dir_name 1 pc, numbered_dir_name 1 sB]]) := by
  have h2s : rootKey ≠ idA := fun h => h2 h.symm
  norm_num [backup, backup_recursive, backup_loop, PageCounter.init, PageCounter.increment,
    PageCounter.get_next_number, lookupD, setK, h1, h2s]

/-- The same run when the root id is the empty string (the `or 'root'`
fallback fires), so the first child shares the root sibling counter. -/
theorem backup_two_children_run_empty_id (sA idB sB idC sC pc : List Char)
    (bc cc : List PTree) :
    backup 2 pc [PTree.node [] sA [PTree.node idB sB bc, PTree.node idC sC cc]]
      = some (⟨3, 2, [(rootKey, 2)]⟩,
          [Ev.fetchPages none, Ev.mat [] [numbered_dir_name 1 pc],
           Ev.fetchPages (some []),
           Ev.mat idB [numbered_dir_name 1 pc, numbered_dir_name 2 sB]]) := by
  norm_num [backup, backup_recursive, backup_loop, PageCounter.init, PageCounter.increment,
    PageCounter.get_next_number, lookupD, setK]

/-- The same run when the root id happens to be the literal key `root`, so
the first child shares the root sibling counter. -/
theorem backup_two_children_run_root_id (sA idB sB idC sC pc : List Char)
    (bc cc : List PTree) :
    backup 2 pc [PTree.node rootKey sA [PTree.node idB sB bc, PTree.node idC sC cc]]
      = some (⟨3, 2, [(rootKey, 2)]⟩,
          [Ev.fetchPages none, Ev.mat rootKey [numbered_dir_name 1 pc],
           Ev.fetchPages (some rootKey),
           Ev.mat idB [numbered_dir_name 1 pc, numbered_dir_name 2 sB]]) := by
  norm_num [backup, backup_recursive, backup_loop, PageCounter.init, PageCounter.increment,
    PageCounter.get_next_number, lookupD, setK]

/-! ## The claims -/

/-- C1: for a page tree whose root `A` has exactly two children `B` and `C`,
with quota 2, the run materializes `A` and then exactly the first child `B`
returned by the API collaborator; the event trace is exactly the top-level
fetch, the materialization of `A`, the fetch of `A`'s children, and the
materialization of `B` — so `C` is never materialized, and the children of
`B` are never fetched or descended into (the trace does not depend on `bc`
or `cc`, the children lists of `B` and `C`). -/
theorem backup_quota_two_materializes_root_then_first_child
    (idA sA idB sB idC sC pc : List Char) (bc cc : List PTree) :
    ∃ lc p1 p2,
      backup 2 pc [PTree.node idA sA [PTree.node idB sB bc, PTree.node idC sC cc]]
        = some (⟨3, 2, lc⟩,
            [Ev.fetchPages none, Ev.mat idA [p1], Ev.fetchPages (some idA),
             Ev.mat idB [p1, p2]]) := by
  by_cases h1 : idA = []
  · subst h1
    exact ⟨_, _, _, backup_two_children_run_empty_id sA idB sB idC sC pc bc cc⟩
  · by_cases h2 : idA = rootKey
    · subst h2
      exact ⟨_, _, _, backup_two_children_run_root_id sA idB sB idC sC pc bc cc⟩
    · exact ⟨_, _, _, backup_two_children_run idA sA idB sB idC sC pc bc cc h1 h2⟩

/-- C2 counterexample: with quota 2 and a root `A` with children `B`, `C`,
the run succeeds, materializes 2 pages, but reports a final count of 3 (the
refused increment for `C` still raised the count), so the reported count
does not equal the number of pages materialized. -/
theorem backup_reported_count_ne_materialized_counterexample :
    (backup 2 ("P".toList)
        [PTree.node ("a".toList) ("A".toList)
          [PTree.node ("b".toList) ("B".toList) [],
           PTree.node ("c".toList) ("C".toList) []]]).map
        (fun r => (r.1.count, (matCount r.2 : Int))) = some (3, 2)
    ∧ (3 : Int) ≠ 2 := by
  constructor
  · rw [backup_two_children_run ("a".toList) ("A".toList) ("b".toList) ("B".toList)
      ("c".toList) ("C".toList) ("P".toList) [] [] (by decide) (by decide)]
    simp [matCount]
  · decide

/-- C2 amended: at the end of a successful run the reported count is an
upper bound on the number of materialized pages, and equals it exactly when
the quota never refused an increment — in particular whenever the quota is
the unlimited sentinel `-1` or the final count is still within the limit.
When the quota is reached mid-sibling-list the reported count strictly
exceeds the number of materialized pages (see the counterexample). -/
theorem backup_reported_count_bounds_materialized (limit : Int) (pc : List Char)
    (roots : List PTree) (c : PageCounter) (evs : List Ev)
    (h : backup limit pc roots = some (c, evs)) :
    (matCount evs : Int) ≤ c.count
    ∧ ((limit = -1 ∨ c.count ≤ limit) → c.count = (matCount evs : Int)) := by
  have hr := backup_count limit pc roots c evs h
  exact ⟨hr.1, hr.2.2⟩

/-- Witness for the amended C2, at the concrete quota-cut run. -/
theorem backup_reported_count_bounds_materialized_witness :
    (matCount [Ev.fetchPages none, Ev.mat ("a".toList) [numbered_dir_name 1 ("P".toList)],
        Ev.fetchPages (some ("a".toList)),
        Ev.mat ("b".toList)
          [numbered_dir_name 1 ("P".toList), numbered_dir_name 1 ("B".toList)]] : Int)
      ≤ (⟨3, 2, [(rootKey, 1), ("a".toList, 1)]⟩ : PageCounter).count
    ∧ (((2 : Int) = -1 ∨ (⟨3, 2, [(rootKey, 1), ("a".toList, 1)]⟩ : PageCounter).count ≤ 2) →
        (⟨3, 2, [(rootKey, 1), ("a".toList, 1)]⟩ : PageCounter).count
          = (matCount [Ev.fetchPages none,
              Ev.mat ("a".toList) [numbered_dir_name 1 ("P".toList)],
              Ev.fetchPages (some ("a".toList)),
              Ev.mat ("b".toList)
                [numbered_dir_name 1 ("P".toList), numbered_dir_name 1 ("B".toList)]] : Int)) :=
  backup_reported_count_bounds_materialized 2 ("P".toList)
    [PTree.node ("a".toList) ("A".toList)
      [PTree.node ("b".toList) ("B".toList) [],
       PTree.node ("c".toList) ("C".toList) []]] _ _
    (backup_two_children_run ("a".toList) ("A".toList) ("b".toList) ("B".toList)
      ("c".toList) ("C".toList) ("P".toList) [] [] (by decide) (by decide))

/-- C3: every `increment` call raises the count by exactly one and returns
true if and only if the limit is the unlimited sentinel `-1` or the new
count is at most the limit; consequently, starting from a fresh counter with
limit `L ≥ 0`, the `(k+1)`-st of `n` successive calls returns true exactly
when `k + 1 ≤ L` — the first `L` calls return true, all later calls
return false. -/
theorem increment_within_quota_iff (c : PageCounter) (L : Int) (n k : Nat)
    (hL : 0 ≤ L) (hk : k < n) :
    ((c.increment).2.count = c.count + 1
      ∧ ((c.increment).1 = true ↔ (c.limit = -1 ∨ c.count + 1 ≤ c.limit)))
    ∧ (incrementRun (PageCounter.init L) n).get? k
        = some (decide ((k : Int) + 1 ≤ L)) := by
  refine ⟨⟨rfl, by simp [PageCounter.increment]⟩, ?_⟩
  rw [incrementRun_get? n k (PageCounter.init L) hk]
  have h1 : decide ((PageCounter.init L).limit = -1) = false := by
    simp only [PageCounter.init, decide_eq_false_iff_not]
    omega
  rw [h1, Bool.false_or]
  congr 1
  rw [decide_eq_decide]
  simp only [PageCounter.init]
  constructor <;> intro <;> omega

/-- Witness for C3 at limit 2 with four calls, third call refused. -/
theorem increment_within_quota_iff_witness :
    ((PageCounter.mk 7 5 []).increment.2.count = (PageCounter.mk 7 5 []).count + 1
      ∧ ((PageCounter.mk 7 5 []).increment.1 = true ↔
          ((PageCounter.mk 7 5 []).limit = -1
            ∨ (PageCounter.mk 7 5 []).count + 1 ≤ (PageCounter.mk 7 5 []).limit)))
    ∧ (incrementRun (PageCounter.init 2) 4).get? 2
        = some (decide (((2 : Nat) : Int) + 1 ≤ 2)) :=
  increment_within_quota_iff (PageCounter.mk 7 5 []) 2 4 2 (by decide) (by decide)

/-- C4: for every parent key, successive `get_next_number` calls with that
key return the contiguous sequence 1, 2, 3, … regardless of interleaved
calls with other keys: in any call sequence `seq` started on a fresh
counter, the `i`-th result is the number of occurrences of its key among
the first `i+1` calls, and two calls with the same key always return
strictly increasing (hence never reused) numbers; counters for distinct
keys do not influence each other. -/
theorem get_next_number_contiguous_per_key (L : Int) (seq : List (List Char))
    (i : Nat) (k : List Char) (hik : seq.get? i = some k) :
    (run_get_next (PageCounter.init L) seq).get? i
      = some (countOcc k (seq.take (i + 1)))
    ∧ ∀ j, i < j → seq.get? j = some k →
        ∃ a b, (run_get_next (PageCounter.init L) seq).get? i = some a
          ∧ (run_get_next (PageCounter.init L) seq).get? j = some b ∧ a < b := by
  have h0 : lookupD (PageCounter.init L).level_counters k = 0 := rfl
  have hmain := run_get_next_get? seq (PageCounter.init L) i k hik
  rw [h0, Nat.zero_add] at hmain
  refine ⟨hmain, ?_⟩
  intro j hij hj
  have hmainj := run_get_next_get? seq (PageCounter.init L) j k hj
  rw [h0, Nat.zero_add] at hmainj
  refine ⟨_, _, hmain, hmainj, ?_⟩
  have hsplit : seq.take (j + 1) = seq.take (i + 1) ++ (seq.drop (i + 1)).take (j - i) := by
    rw [← List.take_add]
    congr 1
    omega
  have hmem : k ∈ (seq.drop (i + 1)).take (j - i) := by
    have hg : ((seq.drop (i + 1)).take (j - i)).get? (j - (i + 1)) = some k := by
      simp only [List.get?_eq_getElem?]
      rw [List.getElem?_take_of_lt (by omega), List.getElem?_drop]
      have he : i + 1 + (j - (i + 1)) = j := by omega
      rw [he]
      simpa [List.get?_eq_getElem?] using hj
    exact List.get?_mem hg
  rw [hsplit, countOcc_append]
  have := countOcc_pos_of_mem k _ hmem
  omega

/-- Witness for C4: keys a, b, a — the third call (key a) returns 2. -/
theorem get_next_number_contiguous_per_key_witness :
    (run_get_next (PageCounter.init (-1)) ["a".toList, "b".toList, "a".toList]).get? 2
      = some (countOcc ("a".toList) (["a".toList, "b".toList, "a".toList].take 3))
    ∧ ∀ j, 2 < j → ["a".toList, "b".toList, "a".toList].get? j = some ("a".toList) →
        ∃ a b, (run_get_next (PageCounter.init (-1))
            ["a".toList, "b".toList, "a".toList]).get? 2 = some a
          ∧ (run_get_next (PageCounter.init (-1))
              ["a".toList, "b".toList, "a".toList]).get? j = some b ∧ a < b :=
  get_next_number_contiguous_per_key (-1) ["a".toList, "b".toList, "a".toList] 2
    ("a".toList) (by decide)

/-- C5: on a body containing no substring matching the inline-image pattern
`![alt](/wikis/<digits>/files/<digits>)` (i.e. `hasMatch` is false), the
content rewriter returns the body unchanged, whatever the downloader and the
timestamps do. -/
theorem rewrite_identity_on_no_match (dl : List Char → List Char → DLResult)
    (ts : Nat → List Char) (body : List Char) (h : hasMatch body = false) :
    process_inline_images dl ts body = body :=
  sub_of_hasMatch_false dl ts body 0 h

/-- Witness for C5: an image link that is not in `/wikis/<id>/files/<id>`
form passes through unchanged. -/
theorem rewrite_identity_on_no_match_witness :
    process_inline_images (fun _ _ => DLResult.ok) (fun _ => [])
      ("see ![diagram](http://a/b.png) end".toList)
      = "see ![diagram](http://a/b.png) end".toList :=
  rewrite_identity_on_no_match (fun _ _ => DLResult.ok) (fun _ => [])
    ("see ![diagram](http://a/b.png) end".toList) (by decide)

/-- C6: for an inline-image match on which the downloader produces no file
(`noFile`) or raises (`exc`), the rewriter replaces exactly that match by
the corresponding human-readable failure marker — which embeds the alt
text, the container id and the file id —, copies the preceding text `p`
(which contains no match start) verbatim, and continues scanning the
remaining text `q` with the next match index, without raising. -/
theorem rewrite_failed_image_degrades_to_marker (p alt d1 d2 q : List Char)
    (dl : List Char → List Char → DLResult) (ts : Nat → List Char) (i : Nat)
    (hp : ∀ kk, kk < p.length → matchAt (List.drop kk (p ++ imagePat alt d1 d2 ++ q)) = none)
    (hm : matchAt (imagePat alt d1 d2 ++ q) = some (alt, d1, d2, q)) :
    (dl d2 (unique_image_filename (ts i) alt d2) = DLResult.noFile →
        sub dl ts i (p ++ imagePat alt d1 d2 ++ q)
          = p ++ download_fail_marker alt d1 d2 ++ sub dl ts (i + 1) q)
    ∧ (dl d2 (unique_image_filename (ts i) alt d2) = DLResult.exc →
        sub dl ts i (p ++ imagePat alt d1 d2 ++ q)
          = p ++ process_error_marker alt d1 d2 ++ sub dl ts (i + 1) q) := by
  have hstep : sub dl ts i (p ++ imagePat alt d1 d2 ++ q)
      = p ++ (replace_image dl (ts i) alt d1 d2 ++ sub dl ts (i + 1) q) := by
    rw [List.append_assoc]
    rw [sub_append_of_none dl ts p (imagePat alt d1 d2 ++ q) i
      (fun kk hkk => by have hx := hp kk hkk; rwa [List.append_assoc] at hx)]
    rw [sub_of_matchAt dl ts i _ alt d1 d2 q hm]
  constructor <;> intro hdl <;> rw [hstep] <;>
    simp [replace_image, hdl, List.append_assoc]

/-- Witness for C6: the spec's example body with an always-failing
downloader produces the failure marker with alt `diagram`, container id
`10`, file id `20`. -/
theorem rewrite_failed_image_degrades_to_marker_witness :
    ((fun _ _ => DLResult.noFile : List Char → List Char → DLResult)
        ("20".toList) (unique_image_filename ((fun _ => []) 0) ("diagram".toList)
          ("20".toList)) = DLResult.noFile →
      sub (fun _ _ => DLResult.noFile) (fun _ => []) 0
          ("see ".toList ++ imagePat ("diagram".toList) ("10".toList) ("20".toList) ++ [])
        = "see ".toList
            ++ download_fail_marker ("diagram".toList) ("10".toList) ("20".toList)
            ++ sub (fun _ _ => DLResult.noFile) (fun _ => []) 1 [])
    ∧ ((fun _ _ => DLResult.noFile : List Char → List Char → DLResult)
        ("20".toList) (unique_image_filename ((fun _ => []) 0) ("diagram".toList)
          ("20".toList)) = DLResult.exc →
      sub (fun _ _ => DLResult.noFile) (fun _ => []) 0
          ("see ".toList ++ imagePat ("diagram".toList) ("10".toList) ("20".toList) ++ [])
        = "see ".toList
            ++ process_error_marker ("diagram".toList) ("10".toList) ("20".toList)
            ++ sub (fun _ _ => DLResult.noFile) (fun _ => []) 1 []) :=
  rewrite_failed_image_degrades_to_marker ("see ".toList) ("diagram".toList)
    ("10".toList) ("20".toList) [] (fun _ _ => DLResult.noFile) (fun _ => []) 0
    (by
      intro kk hkk
      have hlen : ("see ".toList).length = 4 := rfl
      rw [hlen] at hkk
      interval_cases kk <;> decide)
    (by decide)

/-- C7: the directory name is the number zero-padded to at least two digits,
a space, and the title with every character outside
alphanumeric/space/`-`/`_` replaced by `_`; consequently it never contains
a path separator (`/` or `\`) or a colon, whatever the title. -/
theorem numbered_dir_name_shape_and_safe (n : Nat) (title : List Char) :
    numbered_dir_name n title
      = numFmt n ++ ' ' :: (title.map fun c => if keepTitleChar c then c else '_')
    ∧ 2 ≤ (numFmt n).length
    ∧ ∀ c ∈ numbered_dir_name n title, c ≠ '/' ∧ c ≠ '\\' ∧ c ≠ ':' := by
  refine ⟨rfl, numFmt_length n, ?_⟩
  intro c hc
  have h3 := numbered_dir_name_chars n title c hc
  refine ⟨fun he => ?_, fun he => ?_, fun he => ?_⟩ <;>
    · subst he
      rcases h3 with h | h | h <;> revert h <;> decide

/-- Witness for C7 on a title with slash, colon and backslash. -/
theorem numbered_dir_name_shape_and_safe_witness :
    numbered_dir_name 12 ("a/b:c\\d".toList)
      = numFmt 12 ++ ' ' :: (("a/b:c\\d".toList).map fun c =>
          if keepTitleChar c then c else '_')
    ∧ ('a' ≠ '/' ∧ 'a' ≠ '\\' ∧ 'a' ≠ ':') :=
  ⟨(numbered_dir_name_shape_and_safe 12 ("a/b:c\\d".toList)).1,
    (numbered_dir_name_shape_and_safe 12 ("a/b:c\\d".toList)).2.2 'a' (by decide)⟩

/-- C8 counterexample: for the empty attachment list, `_process_attachments`
returns immediately and the `attachments` subdirectory is NOT created — the
claim's "including the empty list" fails on the code. -/
theorem attachments_dir_not_created_for_empty_counterexample :
    ¬ AOp.mkdirAttachments ∈
        (process_attachments (fun _ _ => DLResult.ok) (fun _ => []) []).1 := by
  decide

/-- C8 amended: for every nonempty attachment list the `attachments`
subdirectory is created first, before any per-file processing step (the
remaining trace holds only download steps); for the empty list the function
returns at once without creating the subdirectory. -/
theorem attachments_dir_created_first_when_nonempty
    (dlA : List Char → List Char → DLResult) (tsA : Nat → List Char)
    (files : List Attach) (h : files ≠ []) :
    (process_attachments dlA tsA files).1
      = AOp.mkdirAttachments :: (attach_loop dlA tsA 0 files).1
    ∧ ∀ op ∈ (attach_loop dlA tsA 0 files).1, op ≠ AOp.mkdirAttachments := by
  constructor
  · cases files with
    | nil => exact absurd rfl h
    | cons f rest => simp [process_attachments]
  · exact attach_loop_no_mkdir dlA tsA files 0

/-- Witness for the amended C8 with a one-element attachment list. -/
theorem attachments_dir_created_first_when_nonempty_witness :
    (process_attachments (fun _ _ => DLResult.ok) (fun _ => [])
        [Attach.mk ("a.txt".toList) ("9".toList) 3]).1
      = AOp.mkdirAttachments :: (attach_loop (fun _ _ => DLResult.ok) (fun _ => []) 0
          [Attach.mk ("a.txt".toList) ("9".toList) 3]).1
    ∧ ∀ op ∈ (attach_loop (fun _ _ => DLResult.ok) (fun _ => []) 0
        [Attach.mk ("a.txt".toList) ("9".toList) 3]).1, op ≠ AOp.mkdirAttachments :=
  attachments_dir_created_first_when_nonempty (fun _ _ => DLResult.ok) (fun _ => [])
    [Attach.mk ("a.txt".toList) ("9".toList) 3] (by decide)

/-- C9: a page with an empty attachment list gets no attachments section:
the content file is exactly the rewrite of the heading line plus body with
nothing appended, and — whenever the title contains no `!` (so no
inline-image match can start inside the heading) — exactly the heading
line followed by the rewritten body. -/
theorem empty_attachments_no_section (dl dlA : List Char → List Char → DLResult)
    (ts tsA : Nat → List Char) (title body : List Char) :
    save_page_content dl ts dlA tsA title body []
      = process_inline_images dl ts (heading title ++ body)
    ∧ ((∀ c ∈ title, c ≠ '!') →
        save_page_content dl ts dlA tsA title body []
          = heading title ++ process_inline_images dl ts body) := by
  have h1 : save_page_content dl ts dlA tsA title body []
      = process_inline_images dl ts (heading title ++ body) := by
    simp [save_page_content, process_attachments]
  refine ⟨h1, fun hT => ?_⟩
  rw [h1]
  have hh : ∀ c ∈ heading title, c ≠ '!' := by
    intro c hcm
    simp only [heading, List.append_assoc, List.mem_append] at hcm
    rcases hcm with h | h | h
    · exact mem_string_ne ("# ".toList) '!' (by decide) c h
    · exact hT c h
    · exact mem_string_ne ("\n\n".toList) '!' (by decide) c h
  exact sub_append_of_no_bang dl ts (heading title) body 0 hh

/-- Witness for C9 at a concrete page. -/
theorem empty_attachments_no_section_witness :
    save_page_content (fun _ _ => DLResult.noFile) (fun _ => [])
        (fun _ _ => DLResult.noFile) (fun _ => []) ("T".toList)
        ("b ![x](/wikis/1/files/2)".toList) []
      = process_inline_images (fun _ _ => DLResult.noFile) (fun _ => [])
          (heading ("T".toList) ++ "b ![x](/wikis/1/files/2)".toList)
    ∧ save_page_content (fun _ _ => DLResult.noFile) (fun _ => [])
        (fun _ _ => DLResult.noFile) (fun _ => []) ("T".toList)
        ("b ![x](/wikis/1/files/2)".toList) []
      = heading ("T".toList)
          ++ process_inline_images (fun _ _ => DLResult.noFile) (fun _ => [])
            ("b ![x](/wikis/1/files/2)".toList) :=
  ⟨(empty_attachments_no_section (fun _ _ => DLResult.noFile) (fun _ _ => DLResult.noFile)
      (fun _ => []) (fun _ => []) ("T".toList) ("b ![x](/wikis/1/files/2)".toList)).1,
    (empty_attachments_no_section (fun _ _ => DLResult.noFile) (fun _ _ => DLResult.noFile)
      (fun _ => []) (fun _ => []) ("T".toList)
      ("b ![x](/wikis/1/files/2)".toList)).2 (by decide)⟩

/-- C10: for a match whose alt text is empty or whitespace-only, the locally
generated file name is `image_<fileId>` with extension `.png` regardless of
the remote file's actual type, with the timestamp inserted before the
extension: `image_<fileId>_<timestamp>.png`. -/
theorem blank_alt_filename_is_image_fileid_png (ts alt fid : List Char)
    (halt : ∀ c ∈ alt, isPySpace c = true) (hfid : ∀ c ∈ fid, c.isDigit = true) :
    unique_image_filename ts alt fid
      = "image_".toList ++ fid ++ '_' :: ts ++ ".png".toList := by
  have hstrip : pyStrip alt = [] := pyStrip_of_all_space alt halt
  unfold unique_image_filename
  rw [if_pos hstrip]
  have hu : ∀ c ∈ "image_".toList ++ fid, c ≠ '.' := by
    intro c hcm
    rcases List.mem_append.mp hcm with h | h
    · exact mem_string_ne ("image_".toList) '.' (by decide) c h
    · have hd := hfid c h
      intro he
      subst he
      revert hd
      decide
  have hne : ¬ ("image_".toList ++ fid).all (· = '.') := by
    intro hall
    have hmem : 'i' ∈ "image_".toList ++ fid := List.mem_append.mpr (Or.inl (by decide))
    have hface := List.all_eq_true.mp hall 'i' hmem
    exact absurd hface (by decide)
  have hv : lastDotIdx (".png".toList) = some 0 := by decide
  simp only [splitext_append_of_nodot _ _ hu hne hv]
  rw [sanitize_file_base_of_keep _ ?keep]
  case keep =>
    intro c hcm
    rcases List.mem_append.mp hcm with h | h
    · exact List.all_eq_true.mp (by decide :
        ("image_".toList).all keepFileChar = true) c h
    · exact keepFileChar_of_digit c (hfid c h)

/-- Witness for C10: whitespace alt, file id 77, timestamp T. -/
theorem blank_alt_filename_is_image_fileid_png_witness :
    unique_image_filename ("T".toList) ("  ".toList) ("77".toList)
      = "image_".toList ++ "77".toList ++ '_' :: "T".toList ++ ".png".toList :=
  blank_alt_filename_is_image_fileid_png ("T".toList) ("  ".toList) ("77".toList)
    (by decide) (by decide)

end WikiBackup
